import Mathlib

/-!
Shallow embedding of the windowed inference aggregation engine of
`modules/python/models/predict_gpu.py` and of the label remapping of
`modules/python/models/dataloader.py`, together with theorems settling the
specification claims about them.
-/

/-- Python `range(start, stop, step)` for a positive `step`: the list
`start, start + step, start + 2*step, ...` of all values below `stop`. -/
def pyRange (start stop step : ℕ) : List ℕ :=
  (List.range ((stop - start + step - 1) / step)).map (fun k => start + k * step)

/-- The window start offsets evaluated by the sliding-window loop of `predict`
(`predict_gpu.py` lines 114-119): `for i in range(0, SEQ_LENGTH, WINDOW_JUMP)`
with `if i + TRAIN_WINDOW > SEQ_LENGTH: break`, so the iteration stops at the
first offset whose window would extend past the end of the sequence. -/
def windowOffsets (L W J : ℕ) : List ℕ :=
  (pyRange 0 L J).takeWhile (fun i => decide (i + W ≤ L))

/-! ### Tensor model for one sequence instance

A tensor over the sequence-length axis is a list of rows (one per position);
a row assigns a real score to each class id.  This models one instance of the
`[batch × L × classes]` tensors of `predict` (the batch axis is elementwise). -/

/-- The all-zero row of class scores. -/
def zeroRow : ℕ → ℝ := fun _ => 0

/-- Softmax (`nn.Softmax(dim=2)`) on one position's class scores: exponentiate and
normalize so the `C` class scores sum to one (`predict_gpu.py` line 138). -/
noncomputable def softmaxRow (C : ℕ) (v : ℕ → ℝ) : ℕ → ℝ :=
  fun j => Real.exp (v j) / ∑ i in Finset.range C, Real.exp (v i)

/-- Softmax (`nn.Softmax(dim=2)`) applied to every position of a window-local tensor. -/
noncomputable def softmaxT (C : ℕ) (x : List (ℕ → ℝ)) : List (ℕ → ℝ) :=
  x.map (softmaxRow C)

/-- Zero padding (`nn.ZeroPad2d((0, 0, top, bottom))`) on the sequence-length axis
(`predict_gpu.py` line 139): `top` all-zero rows before, `bottom` after. -/
def zeroPad2dT (top bottom : ℕ) (x : List (ℕ → ℝ)) : List (ℕ → ℝ) :=
  List.replicate top zeroRow ++ x ++ List.replicate bottom zeroRow

/-- Elementwise addition (`torch.add`) of two `[L × classes]` tensors
(`predict_gpu.py` lines 148-149). -/
noncomputable def addT (a b : List (ℕ → ℝ)) : List (ℕ → ℝ) :=
  List.zipWith (fun r s => fun c => r c + s c) a b

/-! ### The per-batch sliding-window loop -/

/-- One invocation of the transducer model
(`output_base, output_rle, hidden = transducer_model(image_chunk, hidden)`,
`predict_gpu.py` line 129).  The model is abstract; for a fixed batch its
input chunk `images[:, i:i+W]` is determined by the window offset `i`, so an
invocation is a function of the offset and the incoming hidden state. -/
structure StepOut (H : Type) where
  base : List (ℕ → ℝ)
  rle : List (ℕ → ℝ)
  hidden : H

/-- The sliding-window loop body of `predict` (lines 114-149): for each window
offset, run the model on the window threading the hidden state, softmax and
zero-pad both heads' outputs, and add them into the running evidence
tensors. -/
noncomputable def windowLoop {H : Type} (net : ℕ → H → StepOut H)
    (CB CR L W : ℕ) :
    List ℕ → H → List (ℕ → ℝ) → List (ℕ → ℝ) →
      H × List (ℕ → ℝ) × List (ℕ → ℝ)
  | [], h, bt, rt => (h, bt, rt)
  | i :: rest, h, bt, rt =>
      windowLoop net CB CR L W rest (net i h).hidden
        (addT bt (zeroPad2dT i (L - (i + W)) (softmaxT CB (net i h).base)))
        (addT rt (zeroPad2dT i (L - (i + W)) (softmaxT CR (net i h).rle)))

/-- One batch iteration of `predict` (lines 94-149): the hidden state and the
two evidence tensors are initialized to all zeros, then the sliding-window
loop runs over the scheduled window offsets. -/
noncomputable def runBatch {H : Type} (net : ℕ → H → StepOut H) (hzero : H)
    (CB CR L W J : ℕ) : H × List (ℕ → ℝ) × List (ℕ → ℝ) :=
  windowLoop net CB CR L W (windowOffsets L W J) hzero
    (List.replicate L zeroRow) (List.replicate L zeroRow)

/-- The base-head logits produced at each window when the hidden state is
threaded through the invocations in list order. -/
noncomputable def baseOuts {H : Type} (net : ℕ → H → StepOut H) :
    List ℕ → H → List (List (ℕ → ℝ))
  | [], _ => []
  | i :: rest, h => (net i h).base :: baseOuts net rest (net i h).hidden

/-- The run-length-head logits produced at each window when the hidden state
is threaded through the invocations in list order. -/
noncomputable def rleOuts {H : Type} (net : ℕ → H → StepOut H) :
    List ℕ → H → List (List (ℕ → ℝ))
  | [], _ => []
  | i :: rest, h => (net i h).rle :: rleOuts net rest (net i h).hidden

/-- Sum, over those windows `(offset, logits)` whose half-open range
`[offset, offset + W)` contains position `p`, of the softmax-normalized
window output re-aligned to position `p`, at class `j`. -/
noncomputable def windowSum (C W : ℕ) (pairs : List (ℕ × List (ℕ → ℝ)))
    (p j : ℕ) : ℝ :=
  ((pairs.filter (fun q => decide (q.1 ≤ p) && decide (p < q.1 + W))).map
    (fun q => (softmaxT C q.2).getD (p - q.1) zeroRow j)).sum

/-- A trivial constant model used to instantiate the loop theorems at a
concrete input: every invocation returns all-zero logits of width `W` for
both heads and an unchanged (unit) hidden state. -/
def constNet (W : ℕ) : ℕ → Unit → StepOut Unit :=
  fun _ _ => ⟨List.replicate W zeroRow, List.replicate W zeroRow, ()⟩

/-! ### Order invariance of evidence fusion -/

/-- Fusing a list of windows (each an `(offset, logits)` pair) into a running
evidence tensor: for each window in list order, softmax the logits, zero-pad
to full length and add (`predict_gpu.py` lines 137-149, abstracted over the
per-window logits). -/
noncomputable def fuseAll (C L W : ℕ) (init : List (ℕ → ℝ))
    (pairs : List (ℕ × List (ℕ → ℝ))) : List (ℕ → ℝ) :=
  pairs.foldl
    (fun acc q => addT acc (zeroPad2dT q.1 (L - (q.1 + W)) (softmaxT C q.2)))
    init

/-! ### Label resolution -/

/-- The index returned by `torch.max(tensor, 2)` for one position's class
scores (`predict_gpu.py` lines 155-156): the arg-max over the class axis,
returning the index of the first maximal value (PyTorch documents that with
several maximal values the index of the first one is returned).  Modelled as
a left fold over class ids `0, …, C-1` that replaces the current best only on
a strictly larger score. -/
noncomputable def argmaxRow (C : ℕ) (v : ℕ → ℝ) : ℕ :=
  (List.range C).foldl (fun best j => if v best < v j then j else best) 0

/-- The per-position labels of one head (`predict_gpu.py` lines 155-159). -/
noncomputable def resolveLabels (C : ℕ) (t : List (ℕ → ℝ)) : List ℕ :=
  t.map (argmaxRow C)

/-! ### The batch loop and the hidden state -/

/-- The minibatch loop of `predict` (lines 94-159): the Python variable
`hidden` persists lexically across batch iterations, so the loop body is
modelled as receiving the hidden value left over from the previous iteration;
the body then reassigns it to the all-zero state (`hidden = torch.zeros(...)`,
line 99) before running the sliding-window loop, and the final hidden value
of the window loop is what the next iteration receives. -/
noncomputable def batchLoop {B H : Type} (net : B → ℕ → H → StepOut H)
    (hzero : H) (CB CR L W J : ℕ) :
    List B → H → List (H × List (ℕ → ℝ) × List (ℕ → ℝ))
  | [], _ => []
  | b :: rest, _ =>
      runBatch (net b) hzero CB CR L W J ::
        batchLoop net hzero CB CR L W J rest
          (runBatch (net b) hzero CB CR L W J).1

/-! ### Multi-worker launch -/

/-- One decimal digit as a character. -/
def digitChar (d : ℕ) : Char :=
  match d with
  | 0 => '0' | 1 => '1' | 2 => '2' | 3 => '3' | 4 => '4'
  | 5 => '5' | 6 => '6' | 7 => '7' | 8 => '8' | 9 => '9'
  | _ => '?'

/-- Python `str(n)` for a natural number: its decimal digit string. -/
def pyStr (n : ℕ) : String :=
  if n = 0 then ("0")
  else String.mk (((Nat.digits 10 n).map digitChar).reverse)

/-- The output path of the worker of rank `rank`:
`output_filename + "_" + str(rank) + ".hdf"` (`predict_gpu.py` line 55). -/
def outputName (output_filename : String) (rank : ℕ) : String :=
  output_filename ++ "_" ++ pyStr rank ++ ".hdf"

/-- The per-rank configuration produced by `setup` (`predict_gpu.py` lines
186-204): worker `rank` is handed the input shard `all_input_files[rank]`,
the device `all_devices[rank]`, and `predict` opens the output file
`output_filepath + "_" + str(rank) + ".hdf"`. -/
structure WorkerConfig (F D : Type) where
  shard : F
  device : D
  outPath : String

/-- The assignment made by `setup` for the worker of rank `rank`. -/
def setupWorker {F D : Type} [Inhabited F] [Inhabited D]
    (all_input_files : List F) (all_devices : List D)
    (output_filepath : String) (rank : ℕ) : WorkerConfig F D :=
  { shard := all_input_files.getD rank default
    device := all_devices.getD rank default
    outPath := outputName output_filepath rank }

/-! ### Progress and ETA reporting -/

/-- Python `int(q)` on a rational: truncation toward zero. -/
def pyInt (q : ℚ) : ℤ :=
  if 0 ≤ q then ⌊q⌋ else -⌊-q⌋

/-- Whether a worker emits the progress/ETA line (`if rank == 0:`,
`predict_gpu.py` line 163). -/
def emitsETA (rank : ℕ) : Bool := rank == 0

/-- The remaining-time estimate of `predict` (line 165): duration of the most
recently completed batch times the number of batches remaining, in seconds. -/
def etaSeconds (duration : ℚ) (total_batches batch_iterator : ℕ) : ℚ :=
  duration * ((total_batches : ℚ) - (batch_iterator : ℚ))

/-- The hours/minutes/seconds figures printed by `predict` (lines 166-169):
`hours = int(eta/3600)`, then `eta = eta - (eta/3600)` (note: the code
subtracts `eta/3600` itself, not `hours*3600`), then `mins = int(eta/60)`
and `secs = int(eta) % 60`. -/
def pyEtaHMS (eta : ℚ) : ℤ × ℤ × ℤ :=
  (pyInt (eta / 3600),
   pyInt ((eta - eta / 3600) / 60),
   pyInt (eta - eta / 3600) % 60)

/-! ### Label remapping in the data loader -/

/-- The `if/elif` chain applied to one base-label entry in
`SequenceDataset.__getitem__` (`dataloader.py` lines 37-49): ASCII 65 ('A')
becomes 1, 67 ('C') becomes 2, 71 ('G') becomes 3, 84 ('T') becomes 4, and
95 ('_') and 78 ('N') become 0; anything else is untouched. -/
def remapStep (x : ℤ) : ℤ :=
  if x = 65 then 1
  else if x = 67 then 2
  else if x = 71 then 3
  else if x = 84 then 4
  else if x = 95 then 0
  else if x = 78 then 0
  else x

/-- The in-place loop `for i in range(len(label_base)): ...` of
`SequenceDataset.__getitem__`, updating each entry of the vector in index
order. -/
def getitemBase (label_base : List ℤ) : List ℤ :=
  (List.range label_base.length).foldl
    (fun lb i => lb.set i (remapStep (lb.getD i 0))) label_base

/-- The pair of label vectors returned by `SequenceDataset.__getitem__`:
the remapped base labels and the untouched run-length labels. -/
def getitemLabels (label_base label_run_length : List ℤ) : List ℤ × List ℤ :=
  (getitemBase label_base, label_run_length)

lemma takeWhile_map_range' (f : ℕ → ℕ) (p : ℕ → Bool) :
    ∀ (n m s : ℕ), m ≤ n →
      (∀ k, k < m → p (f (s + k)) = true) →
      (m < n → p (f (s + m)) = false) →
      ((List.range' s n).map f).takeWhile p = (List.range' s m).map f := by
  intro n
  induction n with
  | zero =>
      intro m s hm _ _
      have hm0 : m = 0 := Nat.le_zero.mp hm
      subst hm0
      simp
  | succ n ih =>
      intro m s hm htrue hfalse
      cases m with
      | zero =>
          have hps : p (f s) = false := by simpa using hfalse (Nat.succ_pos n)
          simp [List.range'_succ, hps]
      | succ m =>
          have hps : p (f s) = true := by simpa using htrue 0 (Nat.succ_pos m)
          have hrec : ((List.range' (s + 1) n).map f).takeWhile p
              = (List.range' (s + 1) m).map f := by
            apply ih m (s + 1) (Nat.succ_le_succ_iff.mp hm)
            · intro k hk
              have := htrue (k + 1) (Nat.succ_lt_succ hk)
              simpa [Nat.add_comm, Nat.add_left_comm] using this
            · intro hmn
              have := hfalse (Nat.succ_lt_succ hmn)
              simpa [Nat.add_comm, Nat.add_left_comm] using this
          simp [List.range'_succ, hps, hrec]

lemma windowOffsets_eq_map (L W J : ℕ) (hJ : 0 < J) (hJW : J ≤ W) (hWL : W ≤ L) :
    windowOffsets L W J = (List.range ((L - W) / J + 1)).map (fun k => k * J) := by
  have hW : 0 < W := lt_of_lt_of_le hJ hJW
  have hL : 0 < L := lt_of_lt_of_le hW hWL
  have hq : (L - W) / J * J ≤ L - W := Nat.div_mul_le_self _ _
  have hmn : (L - W) / J + 1 ≤ (L - 0 + J - 1) / J := by
    rw [Nat.le_div_iff_mul_le hJ]
    have h1 : ((L - W) / J + 1) * J = (L - W) / J * J + J := by ring
    omega
  have hmain :
      ((List.range' 0 ((L - 0 + J - 1) / J)).map (fun k => 0 + k * J)).takeWhile
          (fun i => decide (i + W ≤ L))
        = (List.range' 0 ((L - W) / J + 1)).map (fun k => 0 + k * J) := by
    apply takeWhile_map_range' (fun k => 0 + k * J) (fun i => decide (i + W ≤ L))
      ((L - 0 + J - 1) / J) ((L - W) / J + 1) 0 hmn
    · intro k hk
      have hk' : k ≤ (L - W) / J := Nat.lt_succ_iff.mp hk
      have hkJ : k * J ≤ L - W := (Nat.le_div_iff_mul_le hJ).mp hk'
      simp only [decide_eq_true_eq, Nat.zero_add]
      omega
    · intro hlt
      have hbig : L - W < ((L - W) / J + 1) * J := by
        have h2 := Nat.div_add_mod (L - W) J
        have h3 : (L - W) % J < J := Nat.mod_lt _ hJ
        have h4 : ((L - W) / J + 1) * J = J * ((L - W) / J) + J := by ring
        omega
      simp only [decide_eq_false_iff_not, not_le, Nat.zero_add]
      have h5 : ((L - W) / J + 1) * J = (L - W) / J * J + J := by ring
      omega
  unfold windowOffsets pyRange
  rw [List.range_eq_range', List.range_eq_range']
  calc ((List.range' 0 ((L - 0 + J - 1) / J)).map (fun k => 0 + k * J)).takeWhile
          (fun i => decide (i + W ≤ L))
      = (List.range' 0 ((L - W) / J + 1)).map (fun k => 0 + k * J) := hmain
    _ = (List.range' 0 ((L - W) / J + 1)).map (fun k => k * J) := by
        apply List.map_congr_left
        intro a _
        omega

lemma windowOffsets_bound (L W J : ℕ) :
    ∀ i ∈ windowOffsets L W J, i + W ≤ L := by
  intro i hi
  have := List.mem_takeWhile_imp hi
  simpa using this

lemma windowOffsets_pairwise (L W J : ℕ) (hJ : 0 < J) :
    List.Pairwise (· < ·) (windowOffsets L W J) := by
  apply List.Pairwise.sublist (List.takeWhile_sublist _)
  unfold pyRange
  apply List.Pairwise.map
  · intro a b hab
    have : a * J < b * J := (Nat.mul_lt_mul_right hJ).mpr hab
    omega
  · exact List.pairwise_lt_range _

/-- C1: the sliding-window loop of `predict` evaluates exactly the windows
with start offsets `0, J, 2J, …, k·J` where `k` is the largest integer with
`k·J + W ≤ L`, in increasing offset order; no evaluated window extends past
`L` (a window that would extend past `L` is dropped entirely), and for
`L = 1000`, `W = 100`, `J = 50` the loop produces exactly the 19 offsets
`0, 50, …, 900`. -/
theorem window_schedule_spec (L W J : ℕ) (hJ : 0 < J) (hJW : J ≤ W) (hWL : W ≤ L) :
    windowOffsets L W J = (List.range ((L - W) / J + 1)).map (fun k => k * J) ∧
    (∀ i ∈ windowOffsets L W J, i + W ≤ L) ∧
    List.Pairwise (· < ·) (windowOffsets L W J) ∧
    windowOffsets 1000 100 50 =
      [0, 50, 100, 150, 200, 250, 300, 350, 400, 450, 500, 550, 600, 650,
       700, 750, 800, 850, 900] ∧
    (windowOffsets 1000 100 50).length = 19 := by
  refine ⟨windowOffsets_eq_map L W J hJ hJW hWL, windowOffsets_bound L W J,
    windowOffsets_pairwise L W J hJ, by decide, by decide⟩

/-- Witness for C1 at `L = 1000`, `W = 100`, `J = 50`. -/
theorem window_schedule_spec_witness :
    windowOffsets 1000 100 50 =
      [0, 50, 100, 150, 200, 250, 300, 350, 400, 450, 500, 550, 600, 650,
       700, 750, 800, 850, 900] ∧
    (windowOffsets 1000 100 50).length = 19 := by
  have h := window_schedule_spec 1000 100 50 (by decide) (by decide) (by decide)
  exact ⟨h.2.2.2.1, h.2.2.2.2⟩

lemma softmaxRow_sum (C : ℕ) (hC : 0 < C) (v : ℕ → ℝ) :
    ∑ j in Finset.range C, softmaxRow C v j = 1 := by
  unfold softmaxRow
  rw [← Finset.sum_div]
  apply div_self
  have hpos : 0 < ∑ i in Finset.range C, Real.exp (v i) := by
    apply Finset.sum_pos (fun i _ => Real.exp_pos (v i))
    exact Finset.nonempty_range_iff.mpr (Nat.pos_iff_ne_zero.mp hC)
  exact ne_of_gt hpos

lemma softmaxT_length (C : ℕ) (x : List (ℕ → ℝ)) :
    (softmaxT C x).length = x.length := by
  simp [softmaxT]

lemma zeroPad2dT_length (top bottom : ℕ) (x : List (ℕ → ℝ)) :
    (zeroPad2dT top bottom x).length = top + x.length + bottom := by
  simp [zeroPad2dT]
  omega

lemma addT_length (a b : List (ℕ → ℝ)) :
    (addT a b).length = min a.length b.length := by
  simp [addT]

lemma getD_replicate_zeroRow : ∀ (n p : ℕ),
    (List.replicate n zeroRow).getD p zeroRow = zeroRow := by
  intro n
  induction n with
  | zero => intro p; simp
  | succ n ih =>
      intro p
      cases p with
      | zero => simp [List.replicate]
      | succ p =>
          rw [List.replicate_succ, List.getD_cons_succ]
          exact ih p

lemma getD_map_softmax (C : ℕ) : ∀ (x : List (ℕ → ℝ)) (p : ℕ), p < x.length →
    (softmaxT C x).getD p zeroRow = softmaxRow C (x.getD p zeroRow) := by
  intro x
  induction x with
  | nil => intro p hp; simp at hp
  | cons r x ih =>
      intro p hp
      cases p with
      | zero => simp [softmaxT]
      | succ p =>
          have hp' : p < x.length := by simpa using hp
          simpa [softmaxT] using ih p hp'

lemma getD_replicate_append : ∀ (n : ℕ) (l : List (ℕ → ℝ)) (p : ℕ),
    (List.replicate n zeroRow ++ l).getD p zeroRow =
      if p < n then zeroRow else l.getD (p - n) zeroRow := by
  intro n
  induction n with
  | zero => intro l p; simp
  | succ n ih =>
      intro l p
      cases p with
      | zero => simp [List.replicate]
      | succ p =>
          have := ih l p
          simp only [List.replicate, List.cons_append, List.getD_cons_succ, this]
          by_cases h : p < n
          · simp [h, Nat.succ_lt_succ h]
          · have h2 : ¬ p + 1 < n + 1 := by omega
            simp [h, h2, Nat.succ_sub_succ]

lemma getD_append_replicate : ∀ (l : List (ℕ → ℝ)) (m p : ℕ),
    (l ++ List.replicate m zeroRow).getD p zeroRow =
      if p < l.length then l.getD p zeroRow else zeroRow := by
  intro l
  induction l with
  | nil =>
      intro m p
      rw [List.nil_append]
      exact getD_replicate_zeroRow m p
  | cons r l ih =>
      intro m p
      cases p with
      | zero => simp
      | succ p =>
          have := ih m p
          simp only [List.cons_append, List.getD_cons_succ, this, List.length_cons]
          by_cases h : p < l.length
          · simp [h, Nat.succ_lt_succ h]
          · have h2 : ¬ p + 1 < l.length + 1 := by omega
            simp [h, h2]

lemma getD_zeroPad (top bottom : ℕ) (x : List (ℕ → ℝ)) (p : ℕ) :
    (zeroPad2dT top bottom x).getD p zeroRow =
      if top ≤ p ∧ p < top + x.length then x.getD (p - top) zeroRow
      else zeroRow := by
  unfold zeroPad2dT
  rw [List.append_assoc, getD_replicate_append]
  by_cases h1 : p < top
  · have h2 : ¬ (top ≤ p ∧ p < top + x.length) := by omega
    simp [h1, h2]
  · rw [if_neg h1, getD_append_replicate]
    by_cases h3 : p - top < x.length
    · have h4 : top ≤ p ∧ p < top + x.length := by omega
      simp [h3, h4]
    · have h4 : ¬ (top ≤ p ∧ p < top + x.length) := by omega
      simp [h3, h4]

lemma getD_addT : ∀ (a b : List (ℕ → ℝ)), a.length = b.length → ∀ (p j : ℕ),
    (addT a b).getD p zeroRow j = a.getD p zeroRow j + b.getD p zeroRow j := by
  intro a
  induction a with
  | nil =>
      intro b hb p j
      have : b = [] := List.length_eq_zero.mp hb.symm
      subst this
      simp [addT, zeroRow]
  | cons r a ih =>
      intro b hb p j
      cases b with
      | nil => simp at hb
      | cons s b =>
          cases p with
          | zero => simp [addT]
          | succ p =>
              have hb' : a.length = b.length := by simpa using hb
              simpa [addT] using ih b hb' p j

/-- C2: for a window with start offset `s` and end offset `s + W`, the fuse
step of `predict` (lines 131-149) turns each head's window-local logits into
a probability distribution over the class axis (each position's class scores
sum to 1), zero-pads the window-local tensor on the sequence-length axis by
`top_pad = s` rows before and `bottom_pad = L - (s + W)` rows after, giving an
`L`-long tensor that is zero outside `[s, s + W)`, and adds it elementwise
into the running evidence tensor. -/
theorem fuse_step_spec (C L W s : ℕ) (logits evidence : List (ℕ → ℝ))
    (hC : 0 < C) (hlen : logits.length = W) (hev : evidence.length = L)
    (hsW : s + W ≤ L) :
    (∀ p, p < W →
      ∑ j in Finset.range C, (softmaxT C logits).getD p zeroRow j = 1) ∧
    (zeroPad2dT s (L - (s + W)) (softmaxT C logits)).length = L ∧
    (∀ p, (zeroPad2dT s (L - (s + W)) (softmaxT C logits)).getD p zeroRow =
      if s ≤ p ∧ p < s + W then (softmaxT C logits).getD (p - s) zeroRow
      else zeroRow) ∧
    (∀ p j,
      (addT evidence (zeroPad2dT s (L - (s + W)) (softmaxT C logits))).getD
          p zeroRow j
        = evidence.getD p zeroRow j +
          (zeroPad2dT s (L - (s + W)) (softmaxT C logits)).getD p zeroRow j) := by
  have hsl : (softmaxT C logits).length = W := by rw [softmaxT_length, hlen]
  have hpadlen : (zeroPad2dT s (L - (s + W)) (softmaxT C logits)).length = L := by
    rw [zeroPad2dT_length, hsl]
    omega
  refine ⟨?_, hpadlen, ?_, ?_⟩
  · intro p hp
    rw [getD_map_softmax C logits p (by omega)]
    exact softmaxRow_sum C hC _
  · intro p
    rw [getD_zeroPad, hsl]
  · intro p j
    exact getD_addT evidence _ (by rw [hpadlen, hev]) p j

/-- Witness for C2 at `C = 2`, `L = 2`, `W = 1`, `s = 0`, zero logits and
zero evidence. -/
theorem fuse_step_spec_witness :
    (0 : ℕ) < 2 ∧
    ∑ j in Finset.range 2,
      (softmaxT 2 [fun _ => (0 : ℝ)]).getD 0 zeroRow j = 1 := by
  refine ⟨by decide, ?_⟩
  have h := fuse_step_spec 2 2 1 0 [fun _ => (0 : ℝ)] [zeroRow, zeroRow]
    (by decide) (by simp) (by simp) (by decide)
  exact h.1 0 (by decide)

lemma windowSum_nil (C W p j : ℕ) : windowSum C W [] p j = 0 := by
  simp [windowSum]

lemma windowSum_cons (C W : ℕ) (i : ℕ) (o : List (ℕ → ℝ))
    (pairs : List (ℕ × List (ℕ → ℝ))) (p j : ℕ) :
    windowSum C W ((i, o) :: pairs) p j
      = (if i ≤ p ∧ p < i + W then (softmaxT C o).getD (p - i) zeroRow j else 0)
        + windowSum C W pairs p j := by
  unfold windowSum
  rw [List.filter_cons]
  by_cases h1 : i ≤ p
  · by_cases h2 : p < i + W
    · simp [h1, h2]
    · simp [h1, h2]
  · simp [h1]

lemma windowLoop_length {H : Type} (net : ℕ → H → StepOut H) (CB CR L W : ℕ)
    (hout : ∀ i h, ((net i h).base).length = W ∧ ((net i h).rle).length = W) :
    ∀ (offsets : List ℕ) (h : H) (bt rt : List (ℕ → ℝ)),
      bt.length = L → rt.length = L → (∀ i ∈ offsets, i + W ≤ L) →
      (windowLoop net CB CR L W offsets h bt rt).2.1.length = L ∧
      (windowLoop net CB CR L W offsets h bt rt).2.2.length = L := by
  intro offsets
  induction offsets with
  | nil =>
      intro h bt rt hbt hrt _
      simp only [windowLoop]
      exact ⟨hbt, hrt⟩
  | cons i rest ih =>
      intro h bt rt hbt hrt hvalid
      have hiW : i + W ≤ L := hvalid i (List.mem_cons_self i rest)
      have hb : (addT bt
          (zeroPad2dT i (L - (i + W)) (softmaxT CB (net i h).base))).length = L := by
        rw [addT_length, zeroPad2dT_length, softmaxT_length, (hout i h).1, hbt]
        omega
      have hr : (addT rt
          (zeroPad2dT i (L - (i + W)) (softmaxT CR (net i h).rle))).length = L := by
        rw [addT_length, zeroPad2dT_length, softmaxT_length, (hout i h).2, hrt]
        omega
      simp only [windowLoop]
      exact ih (net i h).hidden _ _ hb hr
        (fun x hx => hvalid x (List.mem_cons_of_mem _ hx))

lemma windowLoop_getD {H : Type} (net : ℕ → H → StepOut H) (CB CR L W : ℕ)
    (hout : ∀ i h, ((net i h).base).length = W ∧ ((net i h).rle).length = W) :
    ∀ (offsets : List ℕ) (h : H) (bt rt : List (ℕ → ℝ)),
      bt.length = L → rt.length = L → (∀ i ∈ offsets, i + W ≤ L) →
      ∀ (p j : ℕ),
      (windowLoop net CB CR L W offsets h bt rt).2.1.getD p zeroRow j
          = bt.getD p zeroRow j
            + windowSum CB W (offsets.zip (baseOuts net offsets h)) p j ∧
      (windowLoop net CB CR L W offsets h bt rt).2.2.getD p zeroRow j
          = rt.getD p zeroRow j
            + windowSum CR W (offsets.zip (rleOuts net offsets h)) p j := by
  intro offsets
  induction offsets with
  | nil =>
      intro h bt rt hbt hrt _ p j
      simp [windowLoop, windowSum, baseOuts, rleOuts]
  | cons i rest ih =>
      intro h bt rt hbt hrt hvalid p j
      have hiW : i + W ≤ L := hvalid i (List.mem_cons_self i rest)
      have hpadB : (zeroPad2dT i (L - (i + W))
          (softmaxT CB (net i h).base)).length = L := by
        rw [zeroPad2dT_length, softmaxT_length, (hout i h).1]
        omega
      have hpadR : (zeroPad2dT i (L - (i + W))
          (softmaxT CR (net i h).rle)).length = L := by
        rw [zeroPad2dT_length, softmaxT_length, (hout i h).2]
        omega
      have hb : (addT bt
          (zeroPad2dT i (L - (i + W)) (softmaxT CB (net i h).base))).length = L := by
        rw [addT_length, hpadB, hbt]
        omega
      have hr : (addT rt
          (zeroPad2dT i (L - (i + W)) (softmaxT CR (net i h).rle))).length = L := by
        rw [addT_length, hpadR, hrt]
        omega
      have hrest := ih (net i h).hidden _ _ hb hr
        (fun x hx => hvalid x (List.mem_cons_of_mem _ hx)) p j
      have hgetB := getD_addT bt
        (zeroPad2dT i (L - (i + W)) (softmaxT CB (net i h).base))
        (by rw [hpadB, hbt]) p j
      have hgetR := getD_addT rt
        (zeroPad2dT i (L - (i + W)) (softmaxT CR (net i h).rle))
        (by rw [hpadR, hrt]) p j
      have hzB := getD_zeroPad i (L - (i + W)) (softmaxT CB (net i h).base) p
      have hzR := getD_zeroPad i (L - (i + W)) (softmaxT CR (net i h).rle) p
      rw [softmaxT_length, (hout i h).1] at hzB
      rw [softmaxT_length, (hout i h).2] at hzR
      constructor
      · simp only [windowLoop]
        rw [hrest.1, hgetB, hzB]
        simp only [baseOuts, List.zip_cons_cons, windowSum_cons]
        rw [ite_apply]
        simp only [zeroRow]
        ring
      · simp only [windowLoop]
        rw [hrest.2, hgetR, hzR]
        simp only [rleOuts, List.zip_cons_cons, windowSum_cons]
        rw [ite_apply]
        simp only [zeroRow]
        ring

/-- C3: per batch the evidence tensors start all zero, and after all windows
are fused the evidence at position `p` of either head is the sum of the
softmax-normalized window outputs at `p` of exactly those windows whose range
`[offset, offset + W)` contains `p` (a position covered by no window stays
zero, its sum being empty); for `L = 6`, `W = 4`, `J = 2` the windows start
at 0 and 2, positions 2 and 3 are covered by both windows, and positions
0, 1, 4, 5 by exactly one. -/
theorem evidence_sum_spec {H : Type} (net : ℕ → H → StepOut H) (hzero : H)
    (CB CR L W J : ℕ)
    (hout : ∀ i h, ((net i h).base).length = W ∧ ((net i h).rle).length = W)
    (p j : ℕ) :
    (runBatch net hzero CB CR L W J).2.1.getD p zeroRow j
        = windowSum CB W
            ((windowOffsets L W J).zip
              (baseOuts net (windowOffsets L W J) hzero)) p j ∧
    (runBatch net hzero CB CR L W J).2.2.getD p zeroRow j
        = windowSum CR W
            ((windowOffsets L W J).zip
              (rleOuts net (windowOffsets L W J) hzero)) p j ∧
    windowOffsets 6 4 2 = [0, 2] ∧
    (∀ q, q = 2 ∨ q = 3 →
      ((windowOffsets 6 4 2).filter
        (fun i => decide (i ≤ q) && decide (q < i + 4))).length = 2) ∧
    (∀ q, q = 0 ∨ q = 1 ∨ q = 4 ∨ q = 5 →
      ((windowOffsets 6 4 2).filter
        (fun i => decide (i ≤ q) && decide (q < i + 4))).length = 1) := by
  have hmain := windowLoop_getD net CB CR L W hout (windowOffsets L W J) hzero
    (List.replicate L zeroRow) (List.replicate L zeroRow)
    (by simp) (by simp) (windowOffsets_bound L W J) p j
  refine ⟨?_, ?_, by decide, ?_, ?_⟩
  · rw [runBatch, hmain.1, getD_replicate_zeroRow]
    simp [zeroRow]
  · rw [runBatch, hmain.2, getD_replicate_zeroRow]
    simp [zeroRow]
  · intro q hq
    rcases hq with h | h <;> subst h <;> decide
  · intro q hq
    rcases hq with h | h | h | h <;> subst h <;> decide

lemma constNet_out (W : ℕ) : ∀ (i : ℕ) (h : Unit),
    ((constNet W i h).base).length = W ∧ ((constNet W i h).rle).length = W := by
  intro i h
  constructor <;> simp [constNet]

/-- Witness for C3 at the end-to-end scenario `L = 6`, `W = 4`, `J = 2` with
the constant zero-logit model, at position 0 and class 0. -/
theorem evidence_sum_spec_witness :
    (∀ (i : ℕ) (h : Unit), ((constNet 4 i h).base).length = 4 ∧
      ((constNet 4 i h).rle).length = 4) ∧
    (runBatch (constNet 4) () 2 2 6 4 2).2.1.getD 0 zeroRow 0
      = windowSum 2 4
          ((windowOffsets 6 4 2).zip (baseOuts (constNet 4) (windowOffsets 6 4 2) ())) 0 0 := by
  refine ⟨constNet_out 4, ?_⟩
  exact (evidence_sum_spec (constNet 4) () 2 2 6 4 2 (constNet_out 4) 0 0).1

lemma addT_addT_comm : ∀ (a b c : List (ℕ → ℝ)), b.length = c.length →
    addT (addT a b) c = addT (addT a c) b := by
  intro a
  induction a with
  | nil =>
      intro b c _
      simp [addT]
  | cons ra a ih =>
      intro b c hlen
      cases b with
      | nil =>
          cases c with
          | nil => rfl
          | cons rc c => simp at hlen
      | cons rb b =>
          cases c with
          | nil => simp at hlen
          | cons rc c =>
              have hlen' : b.length = c.length := by simpa using hlen
              simp only [addT, List.zipWith_cons_cons] at *
              refine congrArg₂ _ ?_ (ih b c hlen')
              funext u
              ring

/-- C4: for a fixed finite collection of windows with fixed per-window
logits, the evidence tensor obtained by fusing (softmax, zero-pad, add) the
windows one after another is the same for every fusion order. -/
theorem fuse_order_invariant (C L W : ℕ) (init : List (ℕ → ℝ))
    (pairs pairs' : List (ℕ × List (ℕ → ℝ)))
    (hperm : List.Perm pairs' pairs)
    (hvalid : ∀ q ∈ pairs, q.1 + W ≤ L ∧ (q.2).length = W) :
    fuseAll C L W init pairs' = fuseAll C L W init pairs := by
  unfold fuseAll
  apply List.Perm.foldl_eq' hperm
  intro x hx y hy z
  have hxv := hvalid x (hperm.mem_iff.mp hx)
  have hyv := hvalid y (hperm.mem_iff.mp hy)
  apply addT_addT_comm
  rw [zeroPad2dT_length, zeroPad2dT_length, softmaxT_length, softmaxT_length,
    hxv.2, hyv.2]
  omega

/-- Witness for C4: fusing the two windows of the `L = 6`, `W = 4`, `J = 2`
scenario in the two possible orders gives the same evidence tensor. -/
theorem fuse_order_invariant_witness :
    List.Perm [((2 : ℕ), List.replicate 4 zeroRow), (0, List.replicate 4 zeroRow)]
      [((0 : ℕ), List.replicate 4 zeroRow), (2, List.replicate 4 zeroRow)] ∧
    fuseAll 2 6 4 (List.replicate 6 zeroRow)
        [(2, List.replicate 4 zeroRow), (0, List.replicate 4 zeroRow)]
      = fuseAll 2 6 4 (List.replicate 6 zeroRow)
        [(0, List.replicate 4 zeroRow), (2, List.replicate 4 zeroRow)] := by
  have hperm : List.Perm
      [((2 : ℕ), List.replicate 4 zeroRow), (0, List.replicate 4 zeroRow)]
      [((0 : ℕ), List.replicate 4 zeroRow), (2, List.replicate 4 zeroRow)] :=
    List.Perm.swap _ _ _
  refine ⟨hperm, ?_⟩
  apply fuse_order_invariant 2 6 4 (List.replicate 6 zeroRow) _ _ hperm
  intro q hq
  simp only [List.mem_cons, List.mem_singleton, List.not_mem_nil, or_false] at hq
  rcases hq with h | h <;> subst h <;> exact ⟨by decide, by simp⟩

lemma argmaxRow_zero (v : ℕ → ℝ) : argmaxRow 0 v = 0 := rfl

lemma argmaxRow_succ (C : ℕ) (v : ℕ → ℝ) :
    argmaxRow (C + 1) v
      = if v (argmaxRow C v) < v C then C else argmaxRow C v := by
  unfold argmaxRow
  rw [List.range_succ, List.foldl_append]
  rfl

lemma argmaxRow_one (v : ℕ → ℝ) : argmaxRow 1 v = 0 := by
  rw [argmaxRow_succ, argmaxRow_zero]
  exact ite_self 0

lemma argmaxRow_spec (C : ℕ) (v : ℕ → ℝ) :
    0 < C →
    argmaxRow C v < C ∧ (∀ j, j < C → v j ≤ v (argmaxRow C v)) ∧
    ∀ j, j < argmaxRow C v → v j < v (argmaxRow C v) := by
  induction C with
  | zero => intro hC; exact absurd hC (lt_irrefl 0)
  | succ C ih =>
      intro _
      rcases Nat.eq_zero_or_pos C with hC0 | hCpos
      · subst hC0
        rw [argmaxRow_one]
        refine ⟨Nat.one_pos, ?_, ?_⟩
        · intro j hj
          have hj0 : j = 0 := by omega
          subst hj0
          exact le_refl _
        · intro j hj
          exact absurd hj (Nat.not_lt_zero j)
      · obtain ⟨hlt, hmax, hfirst⟩ := ih hCpos
        rw [argmaxRow_succ]
        by_cases hcase : v (argmaxRow C v) < v C
        · rw [if_pos hcase]
          refine ⟨Nat.lt_succ_self C, ?_, ?_⟩
          · intro j hj
            rcases Nat.lt_succ_iff_lt_or_eq.mp hj with hj' | hj'
            · exact le_of_lt (lt_of_le_of_lt (hmax j hj') hcase)
            · subst hj'
              exact le_refl _
          · intro j hj
            exact lt_of_le_of_lt (hmax j hj) hcase
        · rw [if_neg hcase]
          have hCle : v C ≤ v (argmaxRow C v) := not_lt.mp hcase
          refine ⟨Nat.lt_succ_of_lt hlt, ?_, hfirst⟩
          intro j hj
          rcases Nat.lt_succ_iff_lt_or_eq.mp hj with hj' | hj'
          · exact hmax j hj'
          · subst hj'
            exact hCle

lemma argmaxRow_lt (C : ℕ) (v : ℕ → ℝ) (hC : 0 < C) : argmaxRow C v < C :=
  (argmaxRow_spec C v hC).1

lemma argmaxRow_congr : ∀ (C : ℕ) (v w : ℕ → ℝ),
    (∀ j, j < C → v j = w j) → argmaxRow C v = argmaxRow C w := by
  intro C
  induction C with
  | zero => intro v w _; rfl
  | succ C ih =>
      intro v w hvw
      have hvw' : ∀ j, j < C → v j = w j :=
        fun j hj => hvw j (Nat.lt_succ_of_lt hj)
      have heq := ih v w hvw'
      have hm : argmaxRow C w < C + 1 := by
        rcases Nat.eq_zero_or_pos C with h0 | hp
        · subst h0
          rw [argmaxRow_zero]
          exact Nat.one_pos
        · exact Nat.lt_succ_of_lt (argmaxRow_lt C w hp)
      rw [argmaxRow_succ, argmaxRow_succ, heq, hvw _ hm,
        hvw C (Nat.lt_succ_self C)]

lemma argmaxRow_of_pointwise_zero (C : ℕ) (v : ℕ → ℝ)
    (hv : ∀ j, j < C → v j = 0) : argmaxRow C v = 0 := by
  have hz : argmaxRow C v = argmaxRow C zeroRow :=
    argmaxRow_congr C v zeroRow (fun j hj => hv j hj)
  rcases Nat.eq_zero_or_pos C with h0 | hp
  · subst h0
    exact argmaxRow_zero v
  · rw [hz]
    obtain ⟨hlt, _, hfirst⟩ := argmaxRow_spec C zeroRow hp
    by_contra hne
    have hpos : 0 < argmaxRow C zeroRow := Nat.pos_of_ne_zero hne
    have := hfirst 0 hpos
    simp [zeroRow] at this

lemma getD_map_argmax (C : ℕ) : ∀ (t : List (ℕ → ℝ)) (p : ℕ), p < t.length →
    (resolveLabels C t).getD p 0 = argmaxRow C (t.getD p zeroRow) := by
  intro t
  induction t with
  | nil => intro p hp; simp at hp
  | cons r t ih =>
      intro p hp
      cases p with
      | zero => simp [resolveLabels]
      | succ p =>
          have hp' : p < t.length := by simpa using hp
          simpa [resolveLabels] using ih p hp'

/-- C5: label resolution (`torch.max(tensor, 2)`, lines 155-159) assigns to
each position the arg-max over the class axis; whenever several classes tie
for the maximum, the lowest class id is selected; and the result depends only
on the class scores below `C`, so resolution is deterministic: identical
input yields identical output. -/
theorem label_resolution_spec (C : ℕ) (hC : 0 < C) (t : List (ℕ → ℝ))
    (p : ℕ) (hp : p < t.length) :
    (resolveLabels C t).getD p 0 = argmaxRow C (t.getD p zeroRow) ∧
    argmaxRow C (t.getD p zeroRow) < C ∧
    (∀ j, j < C →
      t.getD p zeroRow j ≤ t.getD p zeroRow (argmaxRow C (t.getD p zeroRow))) ∧
    (∀ j, j < C →
      t.getD p zeroRow j = t.getD p zeroRow (argmaxRow C (t.getD p zeroRow)) →
      argmaxRow C (t.getD p zeroRow) ≤ j) ∧
    (∀ w : ℕ → ℝ, (∀ j, j < C → t.getD p zeroRow j = w j) →
      argmaxRow C (t.getD p zeroRow) = argmaxRow C w) := by
  obtain ⟨hlt, hmax, hfirst⟩ := argmaxRow_spec C (t.getD p zeroRow) hC
  refine ⟨getD_map_argmax C t p hp, hlt, hmax, ?_, ?_⟩
  · intro j hj heq
    by_contra hcon
    have hjlt : j < argmaxRow C (t.getD p zeroRow) := by omega
    have := hfirst j hjlt
    rw [heq] at this
    exact lt_irrefl _ this
  · intro w hw
    exact argmaxRow_congr C _ w hw

/-- Witness for C5: on a two-class tie (an all-zero score row) the resolver
selects class id 0. -/
theorem label_resolution_spec_witness :
    (0 : ℕ) < 2 ∧ ([zeroRow] : List (ℕ → ℝ)).length = 1 ∧
    (resolveLabels 2 [zeroRow]).getD 0 0 = 0 := by
  refine ⟨by decide, by decide, ?_⟩
  have h := label_resolution_spec 2 (by decide) [zeroRow] 0 (by decide)
  obtain ⟨hres, hlt, hmax, htie, _⟩ := h
  rw [hres]
  have hcases : argmaxRow 2 (([zeroRow] : List (ℕ → ℝ)).getD 0 zeroRow) = 0 ∨
      argmaxRow 2 (([zeroRow] : List (ℕ → ℝ)).getD 0 zeroRow) = 1 := by omega
  rcases hcases with h0 | h1
  · exact h0
  · have := htie 0 (by decide)
    simp only [List.getD_cons_zero] at h1 this ⊢
    rw [h1] at this ⊢
    exact Nat.le_zero.mp (this rfl)

lemma windowSum_zero_of_uncovered (C W : ℕ)
    (pairs : List (ℕ × List (ℕ → ℝ))) (p j : ℕ)
    (h : ∀ q ∈ pairs, ¬ (q.1 ≤ p ∧ p < q.1 + W)) :
    windowSum C W pairs p j = 0 := by
  unfold windowSum
  have hfil : pairs.filter
      (fun q => decide (q.1 ≤ p) && decide (p < q.1 + W)) = [] := by
    rw [List.filter_eq_nil_iff]
    intro q hq
    simp only [Bool.and_eq_true, decide_eq_true_eq]
    exact h q hq
  rw [hfil]
  simp

/-- C6: a position covered by zero windows, whose accumulated evidence row is
therefore all zero, resolves to class id 0 for both the base head and the
run-length head. -/
theorem zero_evidence_default_spec {H : Type} (net : ℕ → H → StepOut H)
    (hzero : H) (CB CR L W J : ℕ)
    (hout : ∀ i h, ((net i h).base).length = W ∧ ((net i h).rle).length = W)
    (p : ℕ)
    (hnc : ∀ i ∈ windowOffsets L W J, ¬ (i ≤ p ∧ p < i + W)) :
    (∀ j, (runBatch net hzero CB CR L W J).2.1.getD p zeroRow j = 0) ∧
    (∀ j, (runBatch net hzero CB CR L W J).2.2.getD p zeroRow j = 0) ∧
    (resolveLabels CB (runBatch net hzero CB CR L W J).2.1).getD p 0 = 0 ∧
    (resolveLabels CR (runBatch net hzero CB CR L W J).2.2).getD p 0 = 0 := by
  have hzip : ∀ (outs : List (List (ℕ → ℝ)))
      (q : ℕ × List (ℕ → ℝ)), q ∈ (windowOffsets L W J).zip outs →
      ¬ (q.1 ≤ p ∧ p < q.1 + W) := by
    intro outs q hq
    exact hnc q.1 (List.of_mem_zip hq).1
  have hbase : ∀ j, (runBatch net hzero CB CR L W J).2.1.getD p zeroRow j = 0 := by
    intro j
    have hmain := windowLoop_getD net CB CR L W hout (windowOffsets L W J)
      hzero (List.replicate L zeroRow) (List.replicate L zeroRow)
      (by simp) (by simp) (windowOffsets_bound L W J) p j
    rw [runBatch, hmain.1, getD_replicate_zeroRow,
      windowSum_zero_of_uncovered CB W _ p j (hzip _)]
    simp [zeroRow]
  have hrle : ∀ j, (runBatch net hzero CB CR L W J).2.2.getD p zeroRow j = 0 := by
    intro j
    have hmain := windowLoop_getD net CB CR L W hout (windowOffsets L W J)
      hzero (List.replicate L zeroRow) (List.replicate L zeroRow)
      (by simp) (by simp) (windowOffsets_bound L W J) p j
    rw [runBatch, hmain.2, getD_replicate_zeroRow,
      windowSum_zero_of_uncovered CR W _ p j (hzip _)]
    simp [zeroRow]
  have hlen := windowLoop_length net CB CR L W hout (windowOffsets L W J)
    hzero (List.replicate L zeroRow) (List.replicate L zeroRow)
    (by simp) (by simp) (windowOffsets_bound L W J)
  have hL1 : (runBatch net hzero CB CR L W J).2.1.length = L := by
    unfold runBatch
    exact hlen.1
  have hL2 : (runBatch net hzero CB CR L W J).2.2.length = L := by
    unfold runBatch
    exact hlen.2
  refine ⟨hbase, hrle, ?_, ?_⟩
  · by_cases hp : p < L
    · rw [getD_map_argmax CB _ p (by omega)]
      exact argmaxRow_of_pointwise_zero CB _ (fun j _ => hbase j)
    · apply List.getD_eq_default
      unfold resolveLabels
      rw [List.length_map]
      omega
  · by_cases hp : p < L
    · rw [getD_map_argmax CR _ p (by omega)]
      exact argmaxRow_of_pointwise_zero CR _ (fun j _ => hrle j)
    · apply List.getD_eq_default
      unfold resolveLabels
      rw [List.length_map]
      omega

/-- Witness for C6: with `L = 3`, `W = 2`, `J = 2` the only window starts at
offset 0, position 2 is uncovered, and both heads resolve it to class 0. -/
theorem zero_evidence_default_spec_witness :
    (∀ (i : ℕ) (h : Unit), ((constNet 2 i h).base).length = 2 ∧
      ((constNet 2 i h).rle).length = 2) ∧
    (∀ i ∈ windowOffsets 3 2 2, ¬ (i ≤ 2 ∧ 2 < i + 2)) ∧
    (resolveLabels 5 (runBatch (constNet 2) () 5 10 3 2 2).2.1).getD 2 0 = 0 ∧
    (resolveLabels 10 (runBatch (constNet 2) () 5 10 3 2 2).2.2).getD 2 0 = 0 := by
  have h := zero_evidence_default_spec (constNet 2) () 5 10 3 2 2
    (constNet_out 2) 2 (by decide)
  exact ⟨constNet_out 2, by decide, h.2.2.1, h.2.2.2⟩

/-- C7: the recurrent hidden state is reset to the all-zero state at the
start of every batch and threaded sequentially through the window
invocations of that batch, so the batch loop is a pure map of the per-batch
computation: the value carried over from the previous batch (or any initial
hidden value) never influences any batch's result, the hidden state after
processing a batch's windows is the left fold of the model's hidden-state
transition from the all-zero state over the window offsets, and those
offsets are threaded in strictly increasing order. -/
theorem hidden_state_spec {B H : Type} (net : B → ℕ → H → StepOut H)
    (hzero : H) (CB CR L W J : ℕ) (batches : List B) (hinit hinit' : H)
    (hJ : 0 < J) :
    batchLoop net hzero CB CR L W J batches hinit
      = batches.map (fun b => runBatch (net b) hzero CB CR L W J) ∧
    batchLoop net hzero CB CR L W J batches hinit
      = batchLoop net hzero CB CR L W J batches hinit' ∧
    (∀ (b : B) (offsets : List ℕ) (h0 : H) (bt rt : List (ℕ → ℝ)),
      (windowLoop (net b) CB CR L W offsets h0 bt rt).1
        = offsets.foldl (fun h i => (net b i h).hidden) h0) ∧
    List.Pairwise (· < ·) (windowOffsets L W J) := by
  have hthread : ∀ (b : B) (offsets : List ℕ) (h0 : H)
      (bt rt : List (ℕ → ℝ)),
      (windowLoop (net b) CB CR L W offsets h0 bt rt).1
        = offsets.foldl (fun h i => (net b i h).hidden) h0 := by
    intro b offsets
    induction offsets with
    | nil => intro h0 bt rt; simp [windowLoop]
    | cons i rest ih =>
        intro h0 bt rt
        simp only [windowLoop, List.foldl_cons]
        exact ih _ _ _
  have hmap : ∀ (bs : List B) (h : H),
      batchLoop net hzero CB CR L W J bs h
        = bs.map (fun b => runBatch (net b) hzero CB CR L W J) := by
    intro bs
    induction bs with
    | nil => intro h; rfl
    | cons b rest ih =>
        intro h
        simp only [batchLoop, List.map_cons]
        rw [ih]
  refine ⟨hmap batches hinit, ?_, hthread, windowOffsets_pairwise L W J hJ⟩
  rw [hmap batches hinit, hmap batches hinit']

/-- Witness for C7 with two batches, the constant model and two different
incoming hidden values. -/
theorem hidden_state_spec_witness :
    (0 : ℕ) < 2 ∧
    batchLoop (fun _ : Unit => constNet 4) () 2 2 6 4 2 [(), ()] ()
      = [(), ()].map (fun _ => runBatch (constNet 4) () 2 2 6 4 2) := by
  refine ⟨by decide, ?_⟩
  exact (hidden_state_spec (fun _ : Unit => constNet 4) () 2 2 6 4 2
    [(), ()] () () (by decide)).1

lemma digitChar_inj : ∀ a, a < 10 → ∀ b, b < 10 →
    digitChar a = digitChar b → a = b := by decide

lemma map_digitChar_inj : ∀ (l₁ l₂ : List ℕ),
    (∀ d ∈ l₁, d < 10) → (∀ d ∈ l₂, d < 10) →
    l₁.map digitChar = l₂.map digitChar → l₁ = l₂ := by
  intro l₁
  induction l₁ with
  | nil =>
      intro l₂ _ _ h
      cases l₂ with
      | nil => rfl
      | cons b l₂ => simp at h
  | cons a l₁ ih =>
      intro l₂ h₁ h₂ h
      cases l₂ with
      | nil => simp at h
      | cons b l₂ =>
          simp only [List.map_cons, List.cons.injEq] at h
          have ha : a < 10 := h₁ a (List.mem_cons_self a l₁)
          have hb : b < 10 := h₂ b (List.mem_cons_self b l₂)
          have hab : a = b := digitChar_inj a ha b hb h.1
          have hrest : l₁ = l₂ := ih l₂
            (fun d hd => h₁ d (List.mem_cons_of_mem _ hd))
            (fun d hd => h₂ d (List.mem_cons_of_mem _ hd)) h.2
          rw [hab, hrest]

lemma pyStr_inj : Function.Injective pyStr := by
  intro m n h
  unfold pyStr at h
  by_cases hm : m = 0
  · by_cases hn : n = 0
    · rw [hm, hn]
    · rw [if_pos hm, if_neg hn] at h
      have hdata : (("0" : String).data)
          = ((Nat.digits 10 n).map digitChar).reverse := congrArg String.data h
      have hrev : (Nat.digits 10 n).map digitChar = ['0'] := by
        have := congrArg List.reverse hdata
        simpa using this.symm
      have hdig : Nat.digits 10 n = [0] := by
        apply map_digitChar_inj _ [0]
          (fun d hd => Nat.digits_lt_base (by omega) hd)
          (by intro d hd; simp at hd; omega)
        simpa [digitChar] using hrev
      have := Nat.ofDigits_digits 10 n
      rw [hdig] at this
      simp [Nat.ofDigits] at this
      omega
  · by_cases hn : n = 0
    · rw [if_neg hm, if_pos hn] at h
      have hdata : ((Nat.digits 10 m).map digitChar).reverse
          = (("0" : String).data) := congrArg String.data h
      have hrev : (Nat.digits 10 m).map digitChar = ['0'] := by
        have := congrArg List.reverse hdata
        simpa using this
      have hdig : Nat.digits 10 m = [0] := by
        apply map_digitChar_inj _ [0]
          (fun d hd => Nat.digits_lt_base (by omega) hd)
          (by intro d hd; simp at hd; omega)
        simpa [digitChar] using hrev
      have := Nat.ofDigits_digits 10 m
      rw [hdig] at this
      simp [Nat.ofDigits] at this
      omega
    · rw [if_neg hm, if_neg hn] at h
      have hdata : ((Nat.digits 10 m).map digitChar).reverse
          = ((Nat.digits 10 n).map digitChar).reverse := congrArg String.data h
      have hmaps : (Nat.digits 10 m).map digitChar
          = (Nat.digits 10 n).map digitChar := by
        have := congrArg List.reverse hdata
        simpa using this
      have hdig : Nat.digits 10 m = Nat.digits 10 n :=
        map_digitChar_inj _ _
          (fun d hd => Nat.digits_lt_base (by omega) hd)
          (fun d hd => Nat.digits_lt_base (by omega) hd) hmaps
      calc m = Nat.ofDigits 10 (Nat.digits 10 m) := (Nat.ofDigits_digits 10 m).symm
        _ = Nat.ofDigits 10 (Nat.digits 10 n) := by rw [hdig]
        _ = n := Nat.ofDigits_digits 10 n

lemma outputName_inj (output_filepath : String) (r s : ℕ) (hrs : r ≠ s) :
    outputName output_filepath r ≠ outputName output_filepath s := by
  intro h
  apply hrs
  unfold outputName at h
  have hdata := congrArg String.data h
  simp only [String.data_append] at hdata
  have h2 : (pyStr r).data = (pyStr s).data := by
    simpa [List.append_assoc] using hdata
  exact pyStr_inj (String.ext h2)

/-- C8: the worker of rank `r` is assigned exactly the input shard
`file_chunks[r]` and the device `devices[r]`, and writes only to the output
path `output_filepath + "_" + r + ".hdf"`, all derived solely from its rank;
distinct ranks always get distinct output paths. -/
theorem worker_partition_spec {F D : Type} [Inhabited F] [Inhabited D]
    (file_chunks : List F) (devices : List D) (output_filepath : String)
    (r : ℕ) (hr : r < file_chunks.length) (hd : r < devices.length) :
    (setupWorker file_chunks devices output_filepath r).shard
        = file_chunks.get ⟨r, hr⟩ ∧
    (setupWorker file_chunks devices output_filepath r).device
        = devices.get ⟨r, hd⟩ ∧
    (setupWorker file_chunks devices output_filepath r).outPath
        = outputName output_filepath r ∧
    (∀ s : ℕ, r ≠ s →
      outputName output_filepath r ≠ outputName output_filepath s) := by
  refine ⟨?_, ?_, rfl, fun s hs => outputName_inj output_filepath r s hs⟩
  · simp [setupWorker, List.getD_eq_getElem?_getD, List.getElem?_eq_getElem hr]
  · simp [setupWorker, List.getD_eq_getElem?_getD, List.getElem?_eq_getElem hd]

/-- Witness for C8: two workers over a two-file, two-device set-up; rank 1
reads the second shard, uses the second device and its output path differs
from rank 0's. -/
theorem worker_partition_spec_witness :
    (1 : ℕ) < 2 ∧
    (setupWorker ["a.csv", "b.csv"] [(0 : ℕ), 1] ("out") 1).shard = "b.csv" ∧
    (setupWorker ["a.csv", "b.csv"] [(0 : ℕ), 1] ("out") 1).outPath
      = outputName ("out") 1 ∧
    outputName ("out") 1 ≠ outputName ("out") 0 := by
  have h := worker_partition_spec ["a.csv", "b.csv"] [(0 : ℕ), 1] ("out") 1
    (by decide) (by decide)
  exact ⟨by decide, h.1, h.2.2.1, h.2.2.2 0 (by decide)⟩

/-- C9 (code bug): the ETA line is emitted only by rank 0, but the printed
hours/minutes/seconds do not decompose the estimate: for an estimate of
7200 seconds (e.g. a 7200-second batch with one batch remaining) the code
prints 2 hours, 119 minutes, 58 seconds, and
2·3600 + 119·60 + 58 = 14398 ≠ 7200, because line 167 subtracts `eta/3600`
instead of `hours·3600`. -/
theorem eta_report_bug :
    (∀ r : ℕ, emitsETA r = true ↔ r = 0) ∧
    etaSeconds 7200 1 0 = 7200 ∧
    pyEtaHMS 7200 = (2, 119, 58) ∧
    (2 * 3600 + 119 * 60 + 58 : ℤ) = 14398 ∧
    pyInt (7200 : ℚ) = 7200 ∧
    (14398 : ℤ) ≠ 7200 := by
  refine ⟨?_, ?_, ?_, by decide, ?_, by decide⟩
  · intro r
    simp [emitsETA]
  · norm_num [etaSeconds]
  · unfold pyEtaHMS
    have h2 : ((7200 : ℚ) - 7200 / 3600) = 7198 := by norm_num
    have h3 : pyInt ((7200 : ℚ) / 3600) = 2 := by
      have h1 : ((7200 : ℚ) / 3600) = 2 := by norm_num
      rw [h1]
      unfold pyInt
      rw [if_pos (by norm_num : (0 : ℚ) ≤ 2)]
      rw [show ((2 : ℚ)) = ((2 : ℤ) : ℚ) from by norm_num, Int.floor_intCast]
    have h4 : pyInt (((7200 : ℚ) - 7200 / 3600) / 60) = 119 := by
      rw [h2]
      unfold pyInt
      rw [if_pos (by norm_num : (0 : ℚ) ≤ 7198 / 60), Int.floor_eq_iff]
      constructor <;> norm_num
    have h5 : pyInt ((7200 : ℚ) - 7200 / 3600) % 60 = 58 := by
      rw [h2]
      unfold pyInt
      rw [if_pos (by norm_num : (0 : ℚ) ≤ 7198)]
      rw [show ((7198 : ℚ)) = ((7198 : ℤ) : ℚ) from by norm_num, Int.floor_intCast]
      decide
    rw [h3, h4, h5]
  · unfold pyInt
    rw [if_pos (by norm_num : (0 : ℚ) ≤ 7200)]
    rw [show ((7200 : ℚ)) = ((7200 : ℤ) : ℚ) from by norm_num, Int.floor_intCast]

lemma set_append_length : ∀ (pre l : List ℤ) (v : ℤ),
    (pre ++ l).set pre.length v = pre ++ l.set 0 v := by
  intro pre
  induction pre with
  | nil => intro l v; rfl
  | cons a pre ih =>
      intro l v
      simp only [List.cons_append, List.length_cons, List.set_cons_succ]
      rw [ih]

lemma getD_append_length : ∀ (pre l : List ℤ) (d : ℤ),
    (pre ++ l).getD pre.length d = l.getD 0 d := by
  intro pre
  induction pre with
  | nil => intro l d; rfl
  | cons a pre ih =>
      intro l d
      simp only [List.cons_append, List.length_cons, List.getD_cons_succ]
      exact ih l d

lemma foldl_set_remap : ∀ (post pre : List ℤ),
    (List.range' pre.length post.length).foldl
        (fun lb i => lb.set i (remapStep (lb.getD i 0))) (pre ++ post)
      = pre ++ post.map remapStep := by
  intro post
  induction post with
  | nil => intro pre; simp
  | cons x post ih =>
      intro pre
      rw [List.length_cons, List.range'_succ, List.foldl_cons,
        getD_append_length, set_append_length]
      simp only [List.getD_cons_zero, List.set_cons_zero]
      have hlen : pre.length + 1 = (pre ++ [remapStep x]).length := by
        simp
      have happ : pre ++ remapStep x :: post
          = (pre ++ [remapStep x]) ++ post := by
        simp
      rw [happ, hlen, ih (pre ++ [remapStep x])]
      simp

lemma getitemBase_eq_map (label_base : List ℤ) :
    getitemBase label_base = label_base.map remapStep := by
  unfold getitemBase
  rw [List.range_eq_range']
  have := foldl_set_remap label_base []
  simpa using this

/-- C10: every item of `SequenceDataset.__getitem__` has its base-label
vector remapped elementwise — 65 ('A') ↦ 1, 67 ('C') ↦ 2, 71 ('G') ↦ 3,
84 ('T') ↦ 4, and both 95 ('_') and 78 ('N') ↦ 0 (class id 0 is the
gap/unknown class) — any other code is left unchanged, and the run-length
label vector is returned unmodified. -/
theorem label_remap_spec (label_base label_run_length : List ℤ) :
    (getitemLabels label_base label_run_length).1 = label_base.map remapStep ∧
    (getitemLabels label_base label_run_length).2 = label_run_length ∧
    remapStep 65 = 1 ∧ remapStep 67 = 2 ∧ remapStep 71 = 3 ∧
    remapStep 84 = 4 ∧ remapStep 95 = 0 ∧ remapStep 78 = 0 ∧
    (∀ x : ℤ, x ≠ 65 → x ≠ 67 → x ≠ 71 → x ≠ 84 → x ≠ 95 → x ≠ 78 →
      remapStep x = x) := by
  refine ⟨getitemBase_eq_map label_base, rfl, by decide, by decide, by decide,
    by decide, by decide, by decide, ?_⟩
  intro x h65 h67 h71 h84 h95 h78
  simp [remapStep, h65, h67, h71, h84, h95, h78]
